import Mathlib

/-!
Verification of the fill-in-the-middle code-completion pipeline of
`src/server-file.ts`: cursor-relative context windowing under a character
budget (`completeController`, lines 40-68), prompt assembly, the response
sanitizer (`postProcessSuggestion`, lines 116-152), the code-fence
unwrapper (`stripCodeBlock`, lines 157-170), request orchestration, and
the single-flight gate (`isProcessing`).

Strings are modelled as `List Char`.  The JavaScript string operations
used by the source (`substring`, `indexOf`, `lastIndexOf`, `split`,
`trim`, `trimEnd`, `replace` with a plain-string pattern) are given exact
counterparts below; `s.indexOf(t) === -1` is modelled by an `Option Nat`
result.  As in JavaScript, `indexOf("")` is `0` and `lastIndexOf("")` is
the string length.
-/

set_option maxRecDepth 40000

namespace CodeSuggestions

/-- Strings are modelled as lists of characters. -/
abbrev Str := List Char

/-- View a Lean string literal as a model string. -/
def strOf (s : String) : Str := s.data

/-- JavaScript whitespace (the ASCII part, which is all this code base
produces): space, tab, newline, carriage return, vertical tab, form feed. -/
def isWs (c : Char) : Bool :=
  c == ' ' || c == '\t' || c == '\n' || c == '\r' || c == '\x0b' || c == '\x0c'

/-- JS `s.trimStart()`. -/
def trimStart (s : Str) : Str := s.dropWhile isWs

/-- JS `s.trimEnd()`. -/
def trimEnd (s : Str) : Str := (s.reverse.dropWhile isWs).reverse

/-- JS `s.trim()`. -/
def trim (s : Str) : Str := trimEnd (trimStart s)

/-- JS `s.indexOf(t)`: the index of the first occurrence of `t` in `s`
(`none` models `-1`).  As in JavaScript, `s.indexOf("") = 0`. -/
def indexOf? : Str → Str → Option Nat
  | [], t => if t.isPrefixOf [] then some 0 else none
  | c :: s, t => if t.isPrefixOf (c :: s) then some 0 else (indexOf? s t).map (· + 1)

/-- JS `s.lastIndexOf(t)`: the index of the last occurrence of `t` in `s`
(`none` models `-1`).  As in JavaScript, `s.lastIndexOf("") = s.length`. -/
def lastIndexOf? : Str → Str → Option Nat
  | [], t => if t.isPrefixOf [] then some 0 else none
  | c :: s, t =>
    match (lastIndexOf? s t).map (· + 1) with
    | some i => some i
    | none => if t.isPrefixOf (c :: s) then some 0 else none

/-- JS `s.split('\n')`. -/
def splitLines : Str → List Str
  | [] => [[]]
  | c :: s =>
    if c == '\n' then [] :: splitLines s
    else
      match splitLines s with
      | [] => [[c]]
      | l :: ls => (c :: l) :: ls

/-- `t` occurs as a contiguous substring of `s`. -/
def Occurs (t s : Str) : Prop := ∃ j, t <+: s.drop j

/- ### Wire-format constants of `server-file.ts` -/

def FIM_PREFIX_TOKEN : Str := strOf "<|fim_prefix|>"

def FIM_SUFFIX_TOKEN : Str := strOf "<|fim_suffix|>"

def FIM_MIDDLE_TOKEN : Str := strOf "<|fim_middle|>"

def CURSOR_MARKER : Str := strOf "<|CURSOR|>"

def FILE_SEPARATOR : Str := strOf "\n\n--- FILE: "

def QWEN_IM_START : Str := strOf "<|im_start|>"

def QWEN_IM_END : Str := strOf "<|im_end|>"

def SYSTEM_INSTRUCTION : Str :=
  strOf "You are a concise code completion engine. Only output code, nothing else."

def CONTEXT_LIMIT : Nat := 2000

/- ### Response sanitizer (`postProcessSuggestion`, lines 116-152) -/

/-- The `stopTokens` array of `postProcessSuggestion` (lines 127-134),
in source order. -/
def stopTokens : List Str :=
  [FIM_PREFIX_TOKEN, FIM_SUFFIX_TOKEN, FIM_MIDDLE_TOKEN,
   QWEN_IM_START, QWEN_IM_END, strOf "</tool_response>", FILE_SEPARATOR]

/-- One iteration of the stage-2 loop (lines 136-139): truncate at the
first occurrence of `token` and trim trailing whitespace. -/
def stripStopStep (c : Str) (token : Str) : Str :=
  match indexOf? c token with
  | some i => trimEnd (c.take i)
  | none => c

/-- Stage 2 of the sanitizer: the `for (const token of stopTokens)` loop. -/
def stripStop (c : Str) : Str := stopTokens.foldl stripStopStep c

/-- Stage 1 of the sanitizer (lines 120-123): aggressive prompt stripping
via `lastIndexOf` and `substring`. -/
def stage1 (rawSuggestion fimPrompt : Str) : Str :=
  match lastIndexOf? rawSuggestion fimPrompt with
  | some promptIndex => rawSuggestion.drop (promptIndex + fimPrompt.length)
  | none => rawSuggestion

/-- `suffixContent.split('\n')[0].trim()` (line 142). -/
def firstSuffixLine (suffixContent : Str) : Str :=
  trim ((splitLines suffixContent).headD [])

/-- Stage 3 of the sanitizer (lines 141-149): trim overlap with the start
of the original suffix. -/
def stage3 (c suffixContent : Str) : Str :=
  let firstSuffixCodeLine := firstSuffixLine suffixContent
  if 0 < firstSuffixCodeLine.length then
    match indexOf? c firstSuffixCodeLine with
    | some overlapIndex =>
      if 0 < overlapIndex then trimEnd (c.take overlapIndex) else c
    | none => c
  else c

/-- `postProcessSuggestion(rawSuggestion, suffixContent, fimPrompt)`
(lines 116-152): prompt-echo strip, then stop-token strip, then
suffix-overlap trim, then a final `trim()`. -/
def postProcessSuggestion (rawSuggestion suffixContent fimPrompt : Str) : Str :=
  trim (stage3 (stripStop (stage1 rawSuggestion fimPrompt)) suffixContent)

/- ### Context windowing (`completeController`, lines 40-68) -/

/-- JS `s.replace(pat, '')` for a plain-string pattern: removes the first
occurrence only. -/
def replaceFirst (s pat : Str) : Str :=
  match indexOf? s pat with
  | some i => s.take i ++ s.drop (i + pat.length)
  | none => s

/-- `context_text.replace('  ', '').trim()` (line 41). -/
def normalizeContext (context_text : Str) : Str :=
  trim (replaceFirst context_text (strOf "  "))

/-- The context-truncation step (lines 56-68).  `Math.floor(excess * 0.7)`
is modelled as the exact flooring division `7 * excess / 10` (the two
agree on all inputs relevant here, e.g. on `excess = 3`). -/
def windowTrim (prefixContent suffixContent : Str) : Str × Str :=
  let combinedLength := prefixContent.length + suffixContent.length
  if CONTEXT_LIMIT < combinedLength then
    let excess := combinedLength - CONTEXT_LIMIT
    let trimPrefixBy := min (7 * excess / 10) prefixContent.length
    let trimSuffixBy := min (excess - trimPrefixBy) suffixContent.length
    (prefixContent.drop trimPrefixBy,
     suffixContent.take (suffixContent.length - trimSuffixBy))
  else (prefixContent, suffixContent)

/-- The windowing phase of `completeController`: normalize, locate the
cursor marker (`none` models the 400 path), split, truncate. -/
def window (context_text : Str) : Option (Str × Str) :=
  let u := normalizeContext context_text
  match indexOf? u CURSOR_MARKER with
  | none => none
  | some cursorIndex =>
    some (windowTrim (u.take cursorIndex) (u.drop (cursorIndex + CURSOR_MARKER.length)))

/- ### Prompt assembly (lines 70-88) -/

/-- `fimStructure` (line 72). -/
def fimStructure (prefixContent suffixContent : Str) : Str :=
  FIM_PREFIX_TOKEN ++ prefixContent ++ FIM_SUFFIX_TOKEN ++ suffixContent ++ FIM_MIDDLE_TOKEN

/-- `fimPrompt` (lines 84-87). -/
def fimPromptOf (prefixContent suffixContent : Str) : Str :=
  QWEN_IM_START ++ strOf "system\n" ++ SYSTEM_INSTRUCTION ++ QWEN_IM_END ++ strOf "\n" ++
  QWEN_IM_START ++ strOf "user\n" ++ fimStructure prefixContent suffixContent ++
  QWEN_IM_END ++ strOf "\n" ++ QWEN_IM_START ++ strOf "assistant\n"

/- ### Code-fence unwrapping (`stripCodeBlock`, lines 157-170) -/

/-- `[a-zA-Z0-9]`. -/
def isAlnum (c : Char) : Bool :=
  ('a' ≤ c && c ≤ 'z') || ('A' ≤ c && c ≤ 'Z') || ('0' ≤ c && c ≤ '9')

/-- The three-backquote fence. -/
def fenceStr : Str := strOf "```"

/-- Does position `j` of `body` start the closing fence of the regex
`^\s*(fence)[a-zA-Z0-9]*\n(.*)\n(fence)\s*$` (dotall), i.e. a newline,
a fence, then only whitespace to the end? -/
def closeFenceAt (body : Str) (j : Nat) : Bool :=
  (strOf "\n```").isPrefixOf (body.drop j) && (body.drop (j + 4)).all isWs

/-- The position chosen for the closing fence by the greedy `(.*)` of the
regex: the rightmost `j` such that `closeFenceAt body j`. -/
def lastCloseFence? (body : Str) : Option Nat :=
  ((List.range (body.length + 1)).reverse).find? (closeFenceAt body)

/-- `stripCodeBlock(codeBlock)` (lines 157-170): if the whole payload is
one fenced code block, return the captured content trimmed (the capture
must be non-empty: JS `match[1]` is falsy for `""`); otherwise return the
payload trimmed. -/
def stripCodeBlock (codeBlock : Str) : Str :=
  let s1 := codeBlock.dropWhile isWs
  if fenceStr.isPrefixOf s1 then
    match (s1.drop 3).dropWhile isAlnum with
    | '\n' :: body =>
      match lastCloseFence? body with
      | some j =>
        let captured := body.take j
        if 0 < captured.length then trim captured else trim codeBlock
      | none => trim codeBlock
    | _ => trim codeBlock
  else trim codeBlock

/- ### Controller orchestration (lines 38-107) -/

/-- The three JSON response shapes produced by `completeController`. -/
inductive ControllerResponse
  | badRequest (error : Str)
  | okJson (text : Str)
  | serverError (error : Str)
deriving DecidableEq

/-- One request through `completeController` (lines 38-107).
`isProcessing` is the gate value observed by the `if (isProcessing)`
check; `modelResult` stands for the outcome of `callFimModelAPI`'s fetch
(`Except.error` models a throw).  The returned `Bool` records whether the
model endpoint was invoked. -/
def completeController (context_text : Str) (isProcessing : Bool)
    (modelResult : Except Unit Str) : ControllerResponse × Bool :=
  let u := normalizeContext context_text
  match indexOf? u CURSOR_MARKER with
  | none => (ControllerResponse.badRequest (strOf "Cursor marker missing."), false)
  | some cursorIndex =>
    let w := windowTrim (u.take cursorIndex) (u.drop (cursorIndex + CURSOR_MARKER.length))
    let fimPrompt := fimPromptOf w.1 w.2
    if isProcessing then (ControllerResponse.okJson (strOf "in process"), false)
    else
      match modelResult with
      | Except.ok response =>
        (ControllerResponse.okJson
          (postProcessSuggestion (stripCodeBlock response) w.2 fimPrompt), true)
      | Except.error _ =>
        (ControllerResponse.serverError (strOf "Failed to generate AI suggestion."), true)

/- ### Basic facts about the string model -/

lemma isPrefixOf_iff {t s : Str} : t.isPrefixOf s = true ↔ t <+: s :=
  List.isPrefixOf_iff_prefix

lemma pre_of_take (i : Nat) (l : Str) : l.take i <+: l :=
  ⟨l.drop i, l.take_append_drop i⟩

lemma suf_of_drop (i : Nat) (l : Str) : l.drop i <:+ l :=
  ⟨l.take i, l.take_append_drop i⟩

lemma drop_len_app (u w : Str) : (u ++ w).drop u.length = w :=
  List.drop_left u w

lemma occurs_iff_inf {t s : Str} : Occurs t s ↔ t <:+: s := by
  constructor
  · rintro ⟨j, r, hr⟩
    exact ⟨s.take j, r, by rw [List.append_assoc, hr, s.take_append_drop j]⟩
  · rintro ⟨u, v, huv⟩
    refine ⟨u.length, v, ?_⟩
    rw [← huv, List.append_assoc]
    exact (drop_len_app u (t ++ v)).symm

lemma occurs_mono {t x s : Str} (hx : x <:+: s) (h : Occurs t x) : Occurs t s := by
  rw [occurs_iff_inf] at h ⊢
  exact h.trans hx

lemma not_occurs_mono {t x s : Str} (hx : x <:+: s) (h : ¬ Occurs t s) : ¬ Occurs t x :=
  fun hc => h (occurs_mono hx hc)

lemma occurs_of_pre {t s : Str} (h : t <+: s) : Occurs t s := ⟨0, h⟩

/- `indexOf?` finds a genuine first occurrence. -/

lemma indexOf?_some_pre {t : Str} :
    ∀ {s : Str} {i : Nat}, indexOf? s t = some i → t <+: s.drop i := by
  intro s
  induction s with
  | nil =>
    intro i h
    unfold indexOf? at h
    split at h
    · rename_i hp
      cases h
      exact isPrefixOf_iff.mp hp
    · cases h
  | cons c s ih =>
    intro i h
    unfold indexOf? at h
    split at h
    · rename_i hp
      cases h
      exact isPrefixOf_iff.mp hp
    · rcases Option.map_eq_some'.mp h with ⟨i', hi', rfl⟩
      exact ih hi'

lemma indexOf?_none {t : Str} :
    ∀ {s : Str}, indexOf? s t = none → ∀ j, ¬ t <+: s.drop j := by
  intro s
  induction s with
  | nil =>
    intro h j hc
    unfold indexOf? at h
    split at h
    · cases h
    · rename_i hp
      rw [List.drop_nil] at hc
      exact hp (isPrefixOf_iff.mpr hc)
  | cons c s ih =>
    intro h j hc
    unfold indexOf? at h
    split at h
    · cases h
    · rename_i hp
      have hrest : indexOf? s t = none := by
        cases hrec : indexOf? s t with
        | none => rfl
        | some i' => rw [hrec] at h; cases h
      cases j with
      | zero => exact hp (isPrefixOf_iff.mpr hc)
      | succ j' => exact ih hrest j' hc

lemma indexOf?_min {t : Str} :
    ∀ {s : Str} {i : Nat}, indexOf? s t = some i → ∀ j, j < i → ¬ t <+: s.drop j := by
  intro s
  induction s with
  | nil =>
    intro i h j hj hc
    unfold indexOf? at h
    split at h
    · cases h; omega
    · cases h
  | cons c s ih =>
    intro i h j hj hc
    unfold indexOf? at h
    split at h
    · cases h; omega
    · rename_i hp
      rcases Option.map_eq_some'.mp h with ⟨i', hi', rfl⟩
      cases j with
      | zero => exact hp (isPrefixOf_iff.mpr hc)
      | succ j' => exact ih hi' j' (by omega) hc

lemma indexOf?_zero_of_pre {t s : Str} (h : t <+: s) : indexOf? s t = some 0 := by
  cases s with
  | nil => unfold indexOf?; rw [if_pos (isPrefixOf_iff.mpr h)]
  | cons c s' => unfold indexOf?; rw [if_pos (isPrefixOf_iff.mpr h)]

lemma indexOf?_some_zero {t s : Str} (h : indexOf? s t = some 0) : t <+: s := by
  have := indexOf?_some_pre h
  simpa using this

lemma occurs_iff_isSome {t s : Str} : Occurs t s ↔ (indexOf? s t).isSome = true := by
  constructor
  · rintro ⟨j, hj⟩
    cases h : indexOf? s t with
    | none => exact absurd hj (indexOf?_none h j)
    | some i => rfl
  · intro h
    cases hi : indexOf? s t with
    | none => rw [hi] at h; cases h
    | some i => exact ⟨i, indexOf?_some_pre hi⟩

instance decOccurs (t s : Str) : Decidable (Occurs t s) :=
  decidable_of_iff _ occurs_iff_isSome.symm

lemma indexOf?_eq_none_iff {t s : Str} : indexOf? s t = none ↔ ¬ Occurs t s := by
  constructor
  · intro h hc
    rw [occurs_iff_isSome, h] at hc
    cases hc
  · intro h
    cases hi : indexOf? s t with
    | none => rfl
    | some i => exact absurd ⟨i, indexOf?_some_pre hi⟩ h

/- `lastIndexOf?` finds a genuine last occurrence. -/

lemma lastIndexOf?_some_pre {t : Str} :
    ∀ {s : Str} {i : Nat}, lastIndexOf? s t = some i → t <+: s.drop i := by
  intro s
  induction s with
  | nil =>
    intro i h
    unfold lastIndexOf? at h
    split at h
    · rename_i hp
      cases h
      exact isPrefixOf_iff.mp hp
    · cases h
  | cons c s ih =>
    intro i h
    unfold lastIndexOf? at h
    split at h
    · rename_i heq
      rcases Option.map_eq_some'.mp heq with ⟨i', hi', rfl⟩
      cases h
      exact ih hi'
    · split at h
      · rename_i hp
        cases h
        exact isPrefixOf_iff.mp hp
      · cases h

lemma lastIndexOf?_none {t : Str} :
    ∀ {s : Str}, lastIndexOf? s t = none → ∀ j, ¬ t <+: s.drop j := by
  intro s
  induction s with
  | nil =>
    intro h j hc
    unfold lastIndexOf? at h
    split at h
    · cases h
    · rename_i hp
      rw [List.drop_nil] at hc
      exact hp (isPrefixOf_iff.mpr hc)
  | cons c s ih =>
    intro h j hc
    unfold lastIndexOf? at h
    split at h
    · cases h
    · rename_i heq
      have hrest : lastIndexOf? s t = none := by
        cases hrec : lastIndexOf? s t with
        | none => rfl
        | some i' => rw [hrec] at heq; cases heq
      split at h
      · cases h
      · rename_i hp
        cases j with
        | zero => exact hp (isPrefixOf_iff.mpr hc)
        | succ j' => exact ih hrest j' hc

lemma lastIndexOf?_max {t : Str} (ht : t ≠ []) :
    ∀ {s : Str} {i : Nat}, lastIndexOf? s t = some i → ∀ j, i < j → ¬ t <+: s.drop j := by
  intro s
  induction s with
  | nil =>
    intro i h j hj hc
    rw [List.drop_nil] at hc
    exact ht (List.prefix_nil.mp hc)
  | cons c s ih =>
    intro i h j hj hc
    unfold lastIndexOf? at h
    split at h
    · rename_i heq
      rcases Option.map_eq_some'.mp heq with ⟨i', hi', rfl⟩
      cases h
      cases j with
      | zero => omega
      | succ j' => exact ih hi' j' (by omega) hc
    · rename_i heq
      have hrest : lastIndexOf? s t = none := by
        cases hrec : lastIndexOf? s t with
        | none => rfl
        | some i' => rw [hrec] at heq; cases heq
      split at h
      · cases h
        cases j with
        | zero => omega
        | succ j' => exact lastIndexOf?_none hrest j' hc
      · cases h

lemma lastIndexOf?_eq_none_iff {t s : Str} :
    lastIndexOf? s t = none ↔ ¬ Occurs t s := by
  constructor
  · rintro h ⟨j, hj⟩
    exact lastIndexOf?_none h j hj
  · intro h
    cases hi : lastIndexOf? s t with
    | none => rfl
    | some i => exact absurd ⟨i, lastIndexOf?_some_pre hi⟩ h

/- Trimming: prefix/suffix/infix structure and idempotence. -/

lemma dropWhile_idem (p : Char → Bool) (l : Str) :
    (l.dropWhile p).dropWhile p = l.dropWhile p := by
  induction l with
  | nil => rfl
  | cons a l ih =>
    by_cases h : p a
    · simp [List.dropWhile_cons, h, ih]
    · simp [List.dropWhile_cons, h]

lemma trimStart_suf (s : Str) : trimStart s <:+ s :=
  List.dropWhile_suffix isWs

lemma trimEnd_pre (s : Str) : trimEnd s <+: s := by
  obtain ⟨u, hu⟩ : s.reverse.dropWhile isWs <:+ s.reverse := List.dropWhile_suffix isWs
  refine ⟨u.reverse, ?_⟩
  have := congrArg List.reverse hu
  rw [List.reverse_append] at this
  simpa [trimEnd] using this

lemma trim_inf (s : Str) : trim s <:+: s :=
  ((trimEnd_pre (trimStart s)).isInfix).trans ((trimStart_suf s).isInfix)

lemma trimStart_idem (s : Str) : trimStart (trimStart s) = trimStart s :=
  dropWhile_idem isWs s

lemma trimEnd_idem (s : Str) : trimEnd (trimEnd s) = trimEnd s := by
  unfold trimEnd
  rw [List.reverse_reverse, dropWhile_idem]

lemma trimStart_eq_self_head {a : Char} {l : Str} (h : isWs a = false) :
    trimStart (a :: l) = a :: l := by
  simp [trimStart, List.dropWhile_cons, h]

lemma len_dropWhile_le (p : Char → Bool) (l : Str) :
    (l.dropWhile p).length ≤ l.length := by
  induction l with
  | nil => simp
  | cons a l ih =>
    by_cases h : p a
    · rw [List.dropWhile_cons, if_pos h]
      simp only [List.length_cons]
      omega
    · rw [List.dropWhile_cons, if_neg h]

lemma head_not_ws_of_trimStart_eq {a : Char} {l : Str}
    (h : trimStart (a :: l) = a :: l) : isWs a = false := by
  by_contra hc
  have ha : isWs a = true := by
    cases hws : isWs a with
    | false => exact absurd hws hc
    | true => rfl
  have heq : trimStart (a :: l) = l.dropWhile isWs := by
    simp [trimStart, List.dropWhile_cons, ha]
  rw [heq] at h
  have hlen : (l.dropWhile isWs).length ≤ l.length := len_dropWhile_le isWs l
  rw [h] at hlen
  simp at hlen

lemma trimStart_trimEnd_of_trimStart_eq {u : Str} (h : trimStart u = u) :
    trimStart (trimEnd u) = trimEnd u := by
  cases hv : trimEnd u with
  | nil => rfl
  | cons a l =>
    obtain ⟨r, hr⟩ := trimEnd_pre u
    rw [hv] at hr
    have hu : u = a :: (l ++ r) := by rw [← hr, List.cons_append]
    have hhead : isWs a = false := by
      apply head_not_ws_of_trimStart_eq
      rw [← hu, h]
    exact trimStart_eq_self_head hhead

lemma trim_idem (s : Str) : trim (trim s) = trim s := by
  unfold trim
  rw [trimStart_trimEnd_of_trimStart_eq (trimStart_idem s), trimEnd_idem]

/- A string equal to its own trim has non-whitespace ends. -/

lemma trimStart_eq_of_trim_eq {l : Str} (h : trim l = l) : trimStart l = l := by
  have h1 : (trim l).length ≤ (trimStart l).length :=
    (trimEnd_pre (trimStart l)).length_le
  have h2 : (trimStart l).length ≤ l.length := (trimStart_suf l).length_le
  have hlen : (trimStart l).length = l.length := by
    rw [h] at h1
    omega
  exact (trimStart_suf l).eq_of_length hlen

lemma trimEnd_eq_of_trim_eq {l : Str} (h : trim l = l) : trimEnd l = l := by
  have hs := trimStart_eq_of_trim_eq h
  unfold trim at h
  rwa [hs] at h

lemma dropWhile_eq_self_of_head {a : Char} {l : Str} (p : Char → Bool)
    (h : p a = false) : (a :: l).dropWhile p = a :: l := by
  simp [List.dropWhile_cons, h]

lemma trimEnd_app_of_trimEnd_eq {l : Str} (h : trimEnd l = l) (r : Str) :
    trimEnd (l ++ r) = l ++ trimEnd r := by
  unfold trimEnd at *
  rw [List.reverse_append, List.dropWhile_append]
  split
  · rename_i hemp
    have hnil : r.reverse.dropWhile isWs = [] := by
      simpa using hemp
    rw [hnil]
    simpa using h
  · rw [List.reverse_append, List.reverse_reverse]

lemma pre_trim_of_pre {l c : Str} (hne : l ≠ []) (hl : trim l = l) (hp : l <+: c) :
    l <+: trim c := by
  obtain ⟨r, hr⟩ := hp
  have hhead : ∃ a t, l = a :: t ∧ isWs a = false := by
    cases l with
    | nil => exact absurd rfl hne
    | cons a t =>
      exact ⟨a, t, rfl, head_not_ws_of_trimStart_eq (trimStart_eq_of_trim_eq hl)⟩
  obtain ⟨a, t, rfl, ha⟩ := hhead
  have hstart : trimStart c = c := by
    rw [← hr, List.cons_append]
    exact trimStart_eq_self_head ha
  unfold trim
  rw [hstart, ← hr, trimEnd_app_of_trimEnd_eq (trimEnd_eq_of_trim_eq hl) r]
  exact ⟨trimEnd r, rfl⟩

/- ### Structure of the sanitizer stages -/

lemma no_occurs_take_of_indexOf {t c : Str} {i : Nat}
    (h : indexOf? c t = some i) (ht : t ≠ []) : ¬ Occurs t (c.take i) := by
  rintro ⟨j, hj⟩
  have hjlt : j < i := by
    have hne : (c.take i).drop j ≠ [] := by
      intro hnil
      rw [hnil] at hj
      exact ht (List.prefix_nil.mp hj)
    have : ¬ (c.take i).length ≤ j := fun hle => hne (List.drop_eq_nil_of_le hle)
    have hlen : (c.take i).length ≤ i := by
      rw [List.length_take]
      omega
    omega
  have hj' : t <+: c.drop j := by
    rw [List.drop_take] at hj
    exact hj.trans (pre_of_take (i - j) (c.drop j))
  exact indexOf?_min h j hjlt hj'

lemma stripStopStep_pre (c t : Str) : stripStopStep c t <+: c := by
  unfold stripStopStep
  cases h : indexOf? c t with
  | none => exact List.prefix_refl c
  | some i => exact (trimEnd_pre (c.take i)).trans (pre_of_take i c)

lemma stripStopStep_no_occ {t : Str} (c : Str) (ht : t ≠ []) :
    ¬ Occurs t (stripStopStep c t) := by
  unfold stripStopStep
  cases h : indexOf? c t with
  | none => exact indexOf?_eq_none_iff.mp h
  | some i =>
    exact not_occurs_mono (trimEnd_pre (c.take i)).isInfix (no_occurs_take_of_indexOf h ht)

lemma stripStopStep_eq_self {t c : Str} (h : ¬ Occurs t c) : stripStopStep c t = c := by
  unfold stripStopStep
  rw [indexOf?_eq_none_iff.mpr h]

lemma foldl_strip_pre : ∀ (toks : List Str) (c : Str),
    List.foldl stripStopStep c toks <+: c := by
  intro toks
  induction toks with
  | nil => intro c; exact List.prefix_refl c
  | cons t toks ih =>
    intro c
    exact (ih (stripStopStep c t)).trans (stripStopStep_pre c t)

lemma foldl_strip_no_occ : ∀ (toks : List Str) (c t : Str),
    t ∈ toks → t ≠ [] → ¬ Occurs t (List.foldl stripStopStep c toks) := by
  intro toks
  induction toks with
  | nil => intro c t hmem; cases hmem
  | cons t' toks ih =>
    intro c t hmem ht
    rcases List.mem_cons.mp hmem with rfl | hmem'
    · exact not_occurs_mono (foldl_strip_pre toks (stripStopStep c t)).isInfix
        (stripStopStep_no_occ c ht)
    · exact ih (stripStopStep c t') t hmem' ht

lemma foldl_strip_id : ∀ (toks : List Str) (c : Str),
    (∀ t ∈ toks, ¬ Occurs t c) → List.foldl stripStopStep c toks = c := by
  intro toks
  induction toks with
  | nil => intro c _; rfl
  | cons t' toks ih =>
    intro c h
    have h1 : stripStopStep c t' = c := stripStopStep_eq_self (h t' (List.mem_cons_self t' toks))
    simp only [List.foldl_cons, h1]
    exact ih c (fun t hmem => h t (List.mem_cons_of_mem t' hmem))

lemma stopTokens_ne_nil : ∀ t ∈ stopTokens, t ≠ [] := by decide

lemma stripStop_pre (c : Str) : stripStop c <+: c := foldl_strip_pre stopTokens c

lemma stripStop_no_occ (c : Str) : ∀ t ∈ stopTokens, ¬ Occurs t (stripStop c) :=
  fun t hmem => foldl_strip_no_occ stopTokens c t hmem (stopTokens_ne_nil t hmem)

lemma stripStop_eq_self {c : Str} (h : ∀ t ∈ stopTokens, ¬ Occurs t c) :
    stripStop c = c := foldl_strip_id stopTokens c h

lemma stage1_suf (raw p : Str) : stage1 raw p <:+ raw := by
  unfold stage1
  cases h : lastIndexOf? raw p with
  | none => exact List.suffix_refl raw
  | some i => exact suf_of_drop (i + p.length) raw

lemma stage1_no_occ {raw p : Str} (hp : p ≠ []) : ¬ Occurs p (stage1 raw p) := by
  unfold stage1
  cases h : lastIndexOf? raw p with
  | none => exact lastIndexOf?_eq_none_iff.mp h
  | some i =>
    rintro ⟨j, hj⟩
    rw [List.drop_drop] at hj
    exact lastIndexOf?_max hp h (i + p.length + j)
      (by have : 0 < p.length := List.length_pos_of_ne_nil hp; omega) hj

lemma stage3_pre (c s : Str) : stage3 c s <+: c := by
  unfold stage3
  dsimp only
  split
  · split
    · rename_i i _
      split
      · exact (trimEnd_pre (c.take i)).trans (pre_of_take i c)
      · exact List.prefix_refl c
    · exact List.prefix_refl c
  · exact List.prefix_refl c

/-- The sanitizer output, as a function of the stage-2 result. -/
lemma sanitize_inf_stage2 (raw s p : Str) :
    postProcessSuggestion raw s p <:+: stripStop (stage1 raw p) := by
  unfold postProcessSuggestion
  exact (trim_inf _).trans (stage3_pre (stripStop (stage1 raw p)) s).isInfix

lemma sanitize_inf_raw (raw s p : Str) : postProcessSuggestion raw s p <:+: raw :=
  ((sanitize_inf_stage2 raw s p).trans (stripStop_pre (stage1 raw p)).isInfix).trans
    (stage1_suf raw p).isInfix

/- Case characterizations of the individual stages, used below. -/

lemma stage1_eq_self {p c : Str} (h : ¬ Occurs p c) : stage1 c p = c := by
  unfold stage1
  rw [lastIndexOf?_eq_none_iff.mpr h]

lemma lastIndexOf?_nil_pat : ∀ s : Str, lastIndexOf? s [] = some s.length := by
  intro s
  induction s with
  | nil => rfl
  | cons c s ih =>
    unfold lastIndexOf?
    rw [ih]
    rfl

lemma stage1_nil_prompt (raw : Str) : stage1 raw [] = [] := by
  unfold stage1
  rw [lastIndexOf?_nil_pat]
  simp

lemma stage3_of_none {s c : Str} (h : indexOf? c (firstSuffixLine s) = none) :
    stage3 c s = c := by
  unfold stage3
  dsimp only
  split
  · rw [h]
  · rfl

lemma stage3_of_indexOf_zero {s c : Str}
    (h : indexOf? c (firstSuffixLine s) = some 0) : stage3 c s = c := by
  unfold stage3
  dsimp only
  split
  · rw [h]
    simp
  · rfl

lemma stage3_of_indexOf_pos {s c : Str} {i : Nat}
    (hg : 0 < (firstSuffixLine s).length)
    (h : indexOf? c (firstSuffixLine s) = some i) (hi : 0 < i) :
    stage3 c s = trimEnd (c.take i) := by
  unfold stage3
  dsimp only
  rw [if_pos hg, h]
  dsimp only
  rw [if_pos hi]

lemma stage3_eq_self_of_no_occ {s c : Str}
    (h : ¬ Occurs (firstSuffixLine s) c) : stage3 c s = c :=
  stage3_of_none (indexOf?_eq_none_iff.mpr h)

lemma stage3_eq_self_of_pre {s c : Str} (h : firstSuffixLine s <+: c) :
    stage3 c s = c :=
  stage3_of_indexOf_zero (indexOf?_zero_of_pre h)

lemma firstSuffixLine_trim (s : Str) : trim (firstSuffixLine s) = firstSuffixLine s :=
  trim_idem _

lemma stripStop_nil : stripStop [] = [] := by decide

lemma stage3_nil (s : Str) : stage3 [] s = [] := by
  by_cases h : 0 < (firstSuffixLine s).length
  · have hne : firstSuffixLine s ≠ [] := by
      intro hc
      rw [hc] at h
      simp at h
    apply stage3_of_none
    unfold indexOf?
    rw [if_neg]
    intro hc
    exact hne (List.prefix_nil.mp (isPrefixOf_iff.mp hc))
  · unfold stage3
    dsimp only
    rw [if_neg h]

/-- With the empty string as `fimPrompt`, stage 1 wipes the whole
suggestion: JS `lastIndexOf("")` is the string length, so the `substring`
keeps nothing. -/
lemma postProcess_empty_prompt (raw s : Str) : postProcessSuggestion raw s [] = [] := by
  unfold postProcessSuggestion
  rw [stage1_nil_prompt, stripStop_nil, stage3_nil]
  rfl

/-- C5: idempotence of the sanitizer — for every raw suggestion,
suffix and prompt, applying `postProcessSuggestion` a second time to its
own output (with the same `suffixContent` and `fimPrompt`) returns that
output unchanged: no stop token, prompt echo or trimmable suffix overlap
remains after one pass. -/
theorem sanitizer_idempotent (raw s p : Str) :
    postProcessSuggestion (postProcessSuggestion raw s p) s p = postProcessSuggestion raw s p := by
  by_cases hp : p = []
  · subst hp
    rw [postProcess_empty_prompt, postProcess_empty_prompt]
  · have hout2 : postProcessSuggestion raw s p <:+: stripStop (stage1 raw p) :=
      sanitize_inf_stage2 raw s p
    have hnop : ¬ Occurs p (postProcessSuggestion raw s p) :=
      not_occurs_mono (hout2.trans (stripStop_pre (stage1 raw p)).isInfix) (stage1_no_occ hp)
    have hb : stage1 (postProcessSuggestion raw s p) p = postProcessSuggestion raw s p :=
      stage1_eq_self hnop
    have hc : stripStop (postProcessSuggestion raw s p) = postProcessSuggestion raw s p :=
      stripStop_eq_self (fun t hmem =>
        not_occurs_mono hout2 (stripStop_no_occ (stage1 raw p) t hmem))
    have hd : stage3 (postProcessSuggestion raw s p) s = postProcessSuggestion raw s p := by
      by_cases hg : 0 < (firstSuffixLine s).length
      · have hlne : firstSuffixLine s ≠ [] := by
          intro hnil
          rw [hnil] at hg
          simp at hg
        cases hidx : indexOf? (stripStop (stage1 raw p)) (firstSuffixLine s) with
        | none =>
          exact stage3_eq_self_of_no_occ
            (not_occurs_mono hout2 (indexOf?_eq_none_iff.mp hidx))
        | some i =>
          cases i with
          | zero =>
            have hpre : firstSuffixLine s <+: stripStop (stage1 raw p) :=
              indexOf?_some_zero hidx
            have houtv : postProcessSuggestion raw s p = trim (stripStop (stage1 raw p)) := by
              unfold postProcessSuggestion
              rw [stage3_of_indexOf_zero hidx]
            refine stage3_eq_self_of_pre ?_
            rw [houtv]
            exact pre_trim_of_pre hlne (firstSuffixLine_trim s) hpre
          | succ i' =>
            have hs3 : stage3 (stripStop (stage1 raw p)) s =
                trimEnd ((stripStop (stage1 raw p)).take (i' + 1)) :=
              stage3_of_indexOf_pos hg hidx (Nat.succ_pos i')
            refine stage3_eq_self_of_no_occ ?_
            show ¬ Occurs (firstSuffixLine s)
              (trim (stage3 (stripStop (stage1 raw p)) s))
            rw [hs3]
            exact not_occurs_mono (trim_inf _)
              (not_occurs_mono (trimEnd_pre _).isInfix
                (no_occurs_take_of_indexOf hidx hlne))
      · unfold stage3
        dsimp only
        rw [if_neg hg]
    show trim (stage3 (stripStop (stage1 (postProcessSuggestion raw s p) p)) s) =
      postProcessSuggestion raw s p
    rw [hb, hc, hd]
    show trim (trim (stage3 (stripStop (stage1 raw p)) s)) =
      trim (stage3 (stripStop (stage1 raw p)) s)
    exact trim_idem _

/- ### The first suffix line: `split('\n')[0]` versus `takeWhile` -/

lemma splitLines_ne_nil : ∀ s : Str, splitLines s ≠ [] := by
  intro s
  induction s with
  | nil => simp [splitLines]
  | cons c s ih =>
    unfold splitLines
    by_cases h : c == '\n'
    · rw [if_pos h]
      simp
    · rw [if_neg h]
      cases hs : splitLines s with
      | nil => simp
      | cons l ls => simp

lemma splitLines_headD (s : Str) :
    (splitLines s).headD [] = s.takeWhile (fun ch => !(ch == '\n')) := by
  induction s with
  | nil => rfl
  | cons c s ih =>
    unfold splitLines
    by_cases h : c == '\n'
    · rw [if_pos h]
      simp [List.takeWhile_cons, h]
    · rw [if_neg h]
      cases hs : splitLines s with
      | nil => exact absurd hs (splitLines_ne_nil s)
      | cons l ls =>
        rw [hs] at ih
        simp only [List.headD_cons] at ih
        simp [List.takeWhile_cons, h]
        exact ih

lemma firstSuffixLine_eq_takeWhile (s : Str) :
    firstSuffixLine s = trim (s.takeWhile (fun ch => !(ch == '\n'))) := by
  unfold firstSuffixLine
  rw [splitLines_headD]

/-- Stage 3 as §4.4 of the spec words it, with the cursor-adjacent line
read off directly: the text of the suffix up to its first newline,
trimmed; if that trimmed line is non-empty and found in the stage-2
result at a position greater than zero, truncate there and trim trailing
whitespace; otherwise (no match, a match at position zero, or an
empty/whitespace-only first line) leave the result alone. -/
def stage3Spec (c suffixContent : Str) : Str :=
  let l0 := trim (suffixContent.takeWhile (fun ch => !(ch == '\n')))
  if l0 = [] then c
  else
    match indexOf? c l0 with
    | some i => if 0 < i then trimEnd (c.take i) else c
    | none => c

/-- Stage 3 as claim C3 words it: the needle is the first NON-empty line
of the original suffix (trimmed), skipping leading empty lines. -/
def stage3ClaimC3 (c suffixContent : Str) : Str :=
  match (splitLines suffixContent).find? (fun l => !l.isEmpty) with
  | none => c
  | some l1 =>
    let l0 := trim l1
    if l0 = [] then c
    else
      match indexOf? c l0 with
      | some i => if 0 < i then trimEnd (c.take i) else c
      | none => c

lemma stage3_eq_spec (c s : Str) : stage3 c s = stage3Spec c s := by
  unfold stage3 stage3Spec
  dsimp only
  rw [← firstSuffixLine_eq_takeWhile]
  by_cases h : firstSuffixLine s = []
  · rw [if_neg, if_pos h]
    rw [h]
    simp
  · rw [if_pos, if_neg h]
    exact List.length_pos_of_ne_nil h

/- ### Claim theorems -/

/-- C2 (counterexample): with `fimPrompt = ""` the sanitizer does NOT
return `"x=1"` on `"x=1<|im_end|>\nnext"`: JS `lastIndexOf("")` is the
input length, so stage 1 discards everything and the result is `""`. -/
theorem sanitize_empty_prompt_counterexample :
    postProcessSuggestion (strOf "x=1<|im_end|>\nnext") [] [] ≠ strOf "x=1" := by
  decide

/-- C2 (amended): for the raw response `"x=1<|im_end|>\nnext"`, for every
prompt that does not occur in the raw response (rather than the empty
prompt, which occurs at the very end and erases everything), and every
`suffixContent` whose first line (trimmed) does not match inside `"x=1"`
at a positive position, the sanitizer returns `"x=1"`. -/
theorem sanitize_x1_example (s p : Str)
    (hp : ¬ Occurs p (strOf "x=1<|im_end|>\nnext"))
    (hs : indexOf? (strOf "x=1") (firstSuffixLine s) = none ∨
      indexOf? (strOf "x=1") (firstSuffixLine s) = some 0) :
    postProcessSuggestion (strOf "x=1<|im_end|>\nnext") s p = strOf "x=1" := by
  have h1 : stage1 (strOf "x=1<|im_end|>\nnext") p = strOf "x=1<|im_end|>\nnext" :=
    stage1_eq_self hp
  have h2 : stripStop (strOf "x=1<|im_end|>\nnext") = strOf "x=1" := by decide
  show trim (stage3 (stripStop (stage1 (strOf "x=1<|im_end|>\nnext") p)) s) = strOf "x=1"
  rw [h1, h2]
  rcases hs with hs | hs
  · rw [stage3_of_none hs]
    decide
  · rw [stage3_of_indexOf_zero hs]
    decide

/-- C2 witness: the amended claim at `suffixContent = ""`, prompt `"q"`. -/
theorem sanitize_x1_example_witness :
    ¬ Occurs (strOf "q") (strOf "x=1<|im_end|>\nnext") ∧
    (indexOf? (strOf "x=1") (firstSuffixLine []) = none ∨
      indexOf? (strOf "x=1") (firstSuffixLine []) = some 0) ∧
    postProcessSuggestion (strOf "x=1<|im_end|>\nnext") [] (strOf "q") = strOf "x=1" :=
  ⟨by decide, by decide, sanitize_x1_example [] (strOf "q") (by decide) (by decide)⟩

/-- C3 (counterexample): stage 3 does NOT use the first non-empty line of
the suffix.  For `suffixContent = "\nabc"` the code takes
`split('\n')[0] = ""` and skips the stage, leaving `"x abc"`, while the
claimed rule would find `"abc"` at position 2 and truncate to `"x"`. -/
theorem stage3_first_nonempty_line_counterexample :
    postProcessSuggestion (strOf "x abc") (strOf "\nabc") (strOf "p") ≠
      trim (stage3ClaimC3 (stripStop (stage1 (strOf "x abc") (strOf "p"))) (strOf "\nabc")) := by
  decide

/-- C3 (amended): stage 3 selects the FIRST line of the original suffix
(trimmed) — even when that line is empty; if that trimmed line is
non-empty and occurs in the stage-2 result at a position strictly greater
than zero, the result is truncated there and trailing whitespace is
trimmed; a match at position zero is left untrimmed, and an
empty/whitespace-only first line skips the stage. -/
theorem stage3_first_line_spec (raw s p : Str) :
    postProcessSuggestion raw s p = trim (stage3Spec (stripStop (stage1 raw p)) s) := by
  show trim (stage3 (stripStop (stage1 raw p)) s) = _
  rw [stage3_eq_spec]

/-- C6: the final Suggestion contains no occurrence of any control token
in the stop list (`<|fim_prefix|>`, `<|fim_suffix|>`, `<|fim_middle|>`,
`<|im_start|>`, `<|im_end|>`, `</tool_response>`, the file separator):
stage 2 removes every such occurrence, and the later stages only take
contiguous pieces of stage 2's output. -/
theorem suggestion_no_stop_tokens (raw s p tok : Str) (htok : tok ∈ stopTokens) :
    ¬ Occurs tok (postProcessSuggestion raw s p) :=
  not_occurs_mono (sanitize_inf_stage2 raw s p) (stripStop_no_occ (stage1 raw p) tok htok)

/-- C6 witness: `<|im_end|>` never survives into a concrete sanitized
output. -/
theorem suggestion_no_stop_tokens_witness :
    QWEN_IM_END ∈ stopTokens ∧
    ¬ Occurs QWEN_IM_END
      (postProcessSuggestion (strOf "a<|im_end|>b") (strOf "c") (strOf "q")) :=
  ⟨by decide, suggestion_no_stop_tokens _ _ _ _ (by decide)⟩

/-- C7 (counterexample): the final Suggestion CAN begin with the line
immediately following the cursor — a position-zero overlap is left in
place by stage 3, so for raw `"return x;\nmore"` and suffix
`"return x;"` the output starts with the duplicated `"return x;"`. -/
theorem suggestion_leading_duplication_counterexample :
    firstSuffixLine (strOf "return x;") ≠ [] ∧
    firstSuffixLine (strOf "return x;") <+:
      postProcessSuggestion (strOf "return x;\nmore") (strOf "return x;") (strOf "p") := by
  constructor
  · decide
  · decide

/-- C7 (amended): unless the stage-2 result itself begins with the
(non-empty, trimmed) first suffix line — the position-zero match that
stage 3 deliberately leaves in place — the final Suggestion contains no
occurrence of that line at all, in particular not a leading one. -/
theorem suggestion_no_suffix_line_unless_leading (raw s p : Str)
    (hne : firstSuffixLine s ≠ [])
    (hnotlead : ¬ firstSuffixLine s <+: stripStop (stage1 raw p)) :
    ¬ Occurs (firstSuffixLine s) (postProcessSuggestion raw s p) := by
  cases hidx : indexOf? (stripStop (stage1 raw p)) (firstSuffixLine s) with
  | none =>
    exact not_occurs_mono (sanitize_inf_stage2 raw s p) (indexOf?_eq_none_iff.mp hidx)
  | some i =>
    cases i with
    | zero => exact absurd (indexOf?_some_zero hidx) hnotlead
    | succ i' =>
      have hs3 : stage3 (stripStop (stage1 raw p)) s =
          trimEnd ((stripStop (stage1 raw p)).take (i' + 1)) :=
        stage3_of_indexOf_pos (List.length_pos_of_ne_nil hne) hidx (Nat.succ_pos i')
      show ¬ Occurs (firstSuffixLine s) (trim (stage3 (stripStop (stage1 raw p)) s))
      rw [hs3]
      exact not_occurs_mono (trim_inf _)
        (not_occurs_mono (trimEnd_pre _).isInfix (no_occurs_take_of_indexOf hidx hne))

/-- C7 witness: a model output that does not start with the suffix line
ends up free of it. -/
theorem suggestion_no_suffix_line_unless_leading_witness :
    firstSuffixLine (strOf "return x;") ≠ [] ∧
    ¬ firstSuffixLine (strOf "return x;") <+: stripStop (stage1 (strOf "foo()") (strOf "p")) ∧
    ¬ Occurs (firstSuffixLine (strOf "return x;"))
      (postProcessSuggestion (strOf "foo()") (strOf "return x;") (strOf "p")) :=
  ⟨by decide, by decide,
    suggestion_no_suffix_line_unless_leading _ _ _ (by decide) (by decide)⟩

/-- C9: a request whose normalized `context_text` does not contain the
cursor marker is answered `400 {error: "Cursor marker missing."}` and
nothing downstream runs: the result does not depend on the gate or on
the model, and the model-invoked flag is `false`. -/
theorem missing_cursor_marker_rejected (context_text : Str) (gate : Bool)
    (modelResult : Except Unit Str)
    (h : ¬ Occurs CURSOR_MARKER (normalizeContext context_text)) :
    completeController context_text gate modelResult =
      (ControllerResponse.badRequest (strOf "Cursor marker missing."), false) := by
  unfold completeController
  dsimp only
  rw [indexOf?_eq_none_iff.mpr h]

/-- C9 witness: the concrete marker-free request `"abc"`. -/
theorem missing_cursor_marker_rejected_witness :
    ¬ Occurs CURSOR_MARKER (normalizeContext (strOf "abc")) ∧
    completeController (strOf "abc") false (Except.ok []) =
      (ControllerResponse.badRequest (strOf "Cursor marker missing."), false) :=
  ⟨by decide, missing_cursor_marker_rejected _ _ _ (by decide)⟩

/-- C10: the sanitizer output is a contiguous (possibly empty) substring
of the raw model response — every stage only drops characters from the
ends of what remains. -/
theorem suggestion_substring_of_raw (raw s p : Str) :
    postProcessSuggestion raw s p <:+: raw :=
  sanitize_inf_raw raw s p

/- ### C1: the windowing budget can be exceeded -/

/-- A request context of 2003 prefix characters, the cursor marker, and
an empty suffix: combined length 2003 > CONTEXT_LIMIT. -/
def ctxOverflow : Str := List.replicate 2003 'a' ++ CURSOR_MARKER

lemma no_double_space_ctxOverflow : ¬ Occurs (strOf "  ") ctxOverflow := by
  intro hocc
  have hmem : (' ' : Char) ∈ ctxOverflow :=
    (occurs_iff_inf.mp hocc).subset (by decide)
  rcases List.mem_append.mp hmem with hA | hM
  · exact absurd (List.eq_of_mem_replicate hA) (by decide)
  · exact absurd hM (by decide)

lemma trim_ctxOverflow : trim ctxOverflow = ctxOverflow := by
  have hstart : trimStart ctxOverflow = ctxOverflow := by
    show trimStart (List.replicate 2003 'a' ++ CURSOR_MARKER) = _
    rw [List.replicate_succ, List.cons_append]
    exact trimStart_eq_self_head (by decide)
  have hrev : ctxOverflow.reverse =
      '>' :: (strOf "|ROSRUC|<" ++ (List.replicate 2003 'a').reverse) := by
    show (List.replicate 2003 'a' ++ CURSOR_MARKER).reverse = _
    rw [List.reverse_append]
    rfl
  have hend : trimEnd ctxOverflow = ctxOverflow := by
    unfold trimEnd
    rw [hrev, dropWhile_eq_self_of_head isWs (by decide), ← hrev,
      List.reverse_reverse]
  unfold trim
  rw [hstart, hend]

lemma norm_ctxOverflow : normalizeContext ctxOverflow = ctxOverflow := by
  unfold normalizeContext replaceFirst
  rw [indexOf?_eq_none_iff.mpr no_double_space_ctxOverflow]
  exact trim_ctxOverflow

lemma indexOf?_replicate_a (n : Nat) :
    indexOf? (List.replicate n 'a' ++ CURSOR_MARKER) CURSOR_MARKER = some n := by
  induction n with
  | zero =>
    show indexOf? CURSOR_MARKER CURSOR_MARKER = some 0
    exact indexOf?_zero_of_pre (List.prefix_refl _)
  | succ n ih =>
    rw [List.replicate_succ, List.cons_append]
    unfold indexOf?
    rw [if_neg, ih]
    · rfl
    · intro hpre
      obtain ⟨r, hr⟩ := isPrefixOf_iff.mp hpre
      have hM : CURSOR_MARKER = '<' :: strOf "|CURSOR|>" := by decide
      rw [hM, List.cons_append] at hr
      injection hr with h1 _
      exact absurd h1 (by decide)

/-- C1: evaluating the windowing on `ctxOverflow` (2003-character prefix,
empty suffix).  `excess = 3`, `trimPrefixBy = floor(3 * 0.7) = 2`, and
`trimSuffixBy = min(1, 0) = 0` saturates at the empty suffix, so only 2
of the 3 excess characters are removed: the post-trim combined length is
2001 = CONTEXT_LIMIT + 1, violating both the claimed equality
`prefix + suffix == CONTEXT_LIMIT` and the spec invariant
`prefix + suffix <= CONTEXT_LIMIT` — yet the source's own comment says
this step "Limit[s] prefix and suffix to a total of CONTEXT_LIMIT
characters". -/
lemma windowTrim_overflow :
    windowTrim (List.replicate 2003 'a') [] = ((List.replicate 2003 'a').drop 2, []) := by
  unfold windowTrim
  dsimp only
  rw [List.length_replicate]
  norm_num [CONTEXT_LIMIT]

theorem windowing_budget_violated :
    (window ctxOverflow).map (fun w => w.1.length + w.2.length) =
      some (CONTEXT_LIMIT + 1) := by
  unfold window
  dsimp only
  rw [norm_ctxOverflow]
  unfold ctxOverflow
  rw [indexOf?_replicate_a 2003]
  dsimp only
  rw [List.take_left' (List.length_replicate 2003 'a'),
    List.drop_eq_nil_of_le
      (by rw [List.length_append, List.length_replicate]),
    windowTrim_overflow]
  simp [CONTEXT_LIMIT]

/- ### C8: the code-fence stage on non-wrapped payloads -/

/-- A payload "entirely wrapped in a single fenced code block (optional
language tag, content, closing fence, optional surrounding whitespace)",
following the spec's description of the full-wrap regex match. -/
def FenceWrapped (codeBlock : Str) : Prop :=
  ∃ ws1 lang body ws2,
    ws1.all isWs = true ∧ lang.all isAlnum = true ∧ ws2.all isWs = true ∧
    codeBlock =
      ws1 ++ fenceStr ++ lang ++ strOf "\n" ++ body ++ strOf "\n" ++ fenceStr ++ ws2

lemma not_fenceWrapped_of_no_tick {codeBlock : Str}
    (h : ('\x60' : Char) ∉ codeBlock) : ¬ FenceWrapped codeBlock := by
  rintro ⟨ws1, lang, body, ws2, _, _, _, heq⟩
  apply h
  rw [heq]
  have htick : ('\x60' : Char) ∈ fenceStr := by decide
  simp only [List.mem_append]
  tauto

/-- C8 (counterexample): a payload that is not fence-wrapped does NOT
pass through unchanged — `" x "` comes back as `"x"`, i.e. trimmed. -/
theorem stripCodeBlock_passthrough_counterexample :
    ¬ FenceWrapped (strOf " x ") ∧ stripCodeBlock (strOf " x ") ≠ strOf " x " :=
  ⟨not_fenceWrapped_of_no_tick (by decide), by decide⟩

/-- C8 (amended): a raw model payload that is not entirely wrapped in a
single fenced code block passes through the code-fence stage with only
its surrounding whitespace removed (JS `codeBlock.trim()`), not
unchanged. -/
theorem stripCodeBlock_unwrapped_trims (codeBlock : Str)
    (h : ¬ FenceWrapped codeBlock) : stripCodeBlock codeBlock = trim codeBlock := by
  unfold stripCodeBlock
  dsimp only
  split
  · rename_i hpre
    split
    · rename_i body heq
      cases hlast : lastCloseFence? body with
      | none => rfl
      | some j =>
        dsimp only
        split
        · rename_i hcap
          exfalso
          apply h
          obtain ⟨s2', hs1⟩ := isPrefixOf_iff.mp hpre
          have h3 : (codeBlock.dropWhile isWs).drop 3 = s2' := by
            rw [← hs1, show (3 : Nat) = fenceStr.length by decide, drop_len_app]
          rw [h3] at heq
          have hcf : closeFenceAt body j = true := List.find?_some hlast
          unfold closeFenceAt at hcf
          rw [Bool.and_eq_true] at hcf
          obtain ⟨h4, h5⟩ := hcf
          obtain ⟨rest, hrest⟩ := isPrefixOf_iff.mp h4
          have hrest4 : rest = body.drop (j + 4) := by
            rw [← List.drop_drop, ← hrest,
              show (4 : Nat) = (strOf "\n```").length by decide, drop_len_app]
          have hdropj : body.drop j = strOf "\n" ++ (fenceStr ++ body.drop (j + 4)) := by
            rw [← hrest, hrest4]
            rfl
          refine ⟨codeBlock.takeWhile isWs, s2'.takeWhile isAlnum, body.take j,
            body.drop (j + 4), List.all_takeWhile, List.all_takeWhile, h5, ?_⟩
          have e1 : codeBlock = codeBlock.takeWhile isWs ++ (fenceStr ++ s2') := by
            rw [hs1, List.takeWhile_append_dropWhile]
          have e2 : s2' = s2'.takeWhile isAlnum ++ (strOf "\n" ++ body) := by
            have e2' := List.takeWhile_append_dropWhile isAlnum s2'
            rw [heq] at e2'
            conv_lhs => rw [← e2']
            rfl
          have e3 : body = body.take j ++ (strOf "\n" ++ (fenceStr ++ body.drop (j + 4))) := by
            conv_lhs => rw [← List.take_append_drop j body, hdropj]
          conv_lhs => rw [e1, e2, e3]
          simp [List.append_assoc]
        · rfl
    · rfl
  · rfl

/-- C8 witness: the amended claim on the concrete non-wrapped payload
`" x "`. -/
theorem stripCodeBlock_unwrapped_trims_witness :
    ¬ FenceWrapped (strOf " x ") ∧ stripCodeBlock (strOf " x ") = trim (strOf " x ") :=
  ⟨not_fenceWrapped_of_no_tick (by decide),
    stripCodeBlock_unwrapped_trims _ (not_fenceWrapped_of_no_tick (by decide))⟩

/- ### C4: the single-flight gate (`isProcessing`)

The only suspension point of a request is the `fetch` inside
`callFimModelAPI`; everything between the `if (isProcessing)` check
(line 93) and the `isProcessing = true` assignment (line 191) runs
synchronously on Node's single thread, so check-and-set is atomic and is
modelled as one `start` transition.  The `finally` block (lines 210-212)
resets the flag on success and on throw alike, modelled by the single
`finish` transition taking either outcome. -/

/-- The lifecycle of one request with respect to the gate. -/
inductive Phase
  | pending
  | inflight
  | doneOk
  | doneErr
  | rejected
deriving DecidableEq

/-- Contribution of one request to the number of in-flight model calls. -/
def phVal : Phase → Nat
  | Phase.inflight => 1
  | _ => 0

/-- Number of in-flight model calls. -/
def countInflight : List Phase → Nat
  | [] => 0
  | ph :: r => phVal ph + countInflight r

/-- Process state: the module-level `isProcessing` flag, the phase of
each request, and how many times the model endpoint has been invoked. -/
structure GateSys where
  gate : Bool
  phases : List Phase
  calls : Nat
deriving DecidableEq

inductive GateLabel
  | start (i : Nat)
  | reject (i : Nat)
  | finish (i : Nat) (ok : Bool)

/-- Interleaving semantics of concurrent requests around the gate. -/
inductive GateStep : GateSys → GateLabel → GateSys → Prop
  | start (s : GateSys) (i : Nat) (hp : s.phases[i]? = some Phase.pending)
      (hg : s.gate = false) :
      GateStep s (GateLabel.start i)
        ⟨true, s.phases.set i Phase.inflight, s.calls + 1⟩
  | reject (s : GateSys) (i : Nat) (hp : s.phases[i]? = some Phase.pending)
      (hg : s.gate = true) :
      GateStep s (GateLabel.reject i)
        ⟨s.gate, s.phases.set i Phase.rejected, s.calls⟩
  | finish (s : GateSys) (i : Nat) (ok : Bool)
      (hp : s.phases[i]? = some Phase.inflight) :
      GateStep s (GateLabel.finish i ok)
        ⟨false, s.phases.set i (if ok then Phase.doneOk else Phase.doneErr), s.calls⟩

/-- Fresh server process with `n` requests to serve and `isProcessing`
initialized to `false` (line 24). -/
def initSys (n : Nat) : GateSys := ⟨false, List.replicate n Phase.pending, 0⟩

inductive GateReachable (n : Nat) : GateSys → Prop
  | init : GateReachable n (initSys n)
  | step {s s' : GateSys} {l : GateLabel} :
      GateReachable n s → GateStep s l s' → GateReachable n s'

/-- The gate properties claimed by the spec: the flag is Busy exactly
while one model call is in flight (and never more than one is); a
rejected request changes neither the call count nor the gate; finishing
— successfully or by throwing — always returns the gate to Idle; and
whenever the gate is Idle any pending request can proceed. -/
def GateInvariant (s : GateSys) : Prop :=
  (s.gate = true ↔ countInflight s.phases = 1) ∧
  countInflight s.phases ≤ 1 ∧
  (∀ i s', GateStep s (GateLabel.reject i) s' → s'.calls = s.calls ∧ s'.gate = s.gate) ∧
  (∀ i ok s', GateStep s (GateLabel.finish i ok) s' → s'.gate = false) ∧
  (∀ i, s.gate = false → s.phases[i]? = some Phase.pending →
    GateStep s (GateLabel.start i) ⟨true, s.phases.set i Phase.inflight, s.calls + 1⟩)

lemma countInflight_cons (ph : Phase) (r : List Phase) :
    countInflight (ph :: r) = phVal ph + countInflight r := rfl

lemma countInflight_set : ∀ (l : List Phase) (i : Nat) (a b : Phase),
    l[i]? = some a →
    countInflight (l.set i b) + phVal a = countInflight l + phVal b := by
  intro l
  induction l with
  | nil => intro i a b h; simp at h
  | cons ph r ih =>
    intro i a b h
    cases i with
    | zero =>
      simp only [List.getElem?_cons_zero, Option.some.injEq] at h
      subst h
      simp only [List.set_cons_zero, countInflight_cons]
      omega
    | succ i' =>
      simp only [List.getElem?_cons_succ] at h
      have := ih i' a b h
      simp only [List.set_cons_succ, countInflight_cons]
      omega

lemma countInflight_replicate_pending : ∀ n : Nat,
    countInflight (List.replicate n Phase.pending) = 0 := by
  intro n
  induction n with
  | zero => rfl
  | succ n ih =>
    rw [List.replicate_succ, countInflight_cons, ih]
    rfl

/-- C4: every reachable state of the gate system satisfies the
single-flight properties — `isProcessing` is `true` exactly while one
model call is in flight and at most one ever is; a request rejected
while the gate is Busy invokes no additional model call and leaves the
gate as is (and the controller answers it with the fixed
`{text: "in process"}` body); completion of the in-flight call, whether
it returns or throws, resets the gate to Idle; and a pending request can
always start once the gate is Idle. -/
theorem gate_single_flight (n : Nat) (s : GateSys) (h : GateReachable n s) :
    GateInvariant s ∧
    (∀ context_text modelResult, Occurs CURSOR_MARKER (normalizeContext context_text) →
      completeController context_text true modelResult =
        (ControllerResponse.okJson (strOf "in process"), false)) := by
  constructor
  · have hcore : (s.gate = true ↔ countInflight s.phases = 1) ∧
        countInflight s.phases ≤ 1 := by
      induction h with
      | init =>
        show ((initSys n).gate = true ↔ countInflight (List.replicate n Phase.pending) = 1) ∧
          countInflight (List.replicate n Phase.pending) ≤ 1
        rw [countInflight_replicate_pending]
        constructor
        · simp [initSys]
        · exact Nat.zero_le 1
      | @step t t' l hr hstep ih =>
        obtain ⟨hiff, hle⟩ := ih
        cases hstep with
        | start i hp hg =>
          have hcnt := countInflight_set t.phases i Phase.pending Phase.inflight hp
          simp only [phVal] at hcnt
          have hzero : countInflight t.phases = 0 := by
            by_contra hnz
            have h1 : countInflight t.phases = 1 := by omega
            have := hiff.mpr h1
            rw [hg] at this
            cases this
          dsimp only
          constructor
          · constructor
            · intro _
              omega
            · intro _
              rfl
          · omega
        | reject i hp hg =>
          have hcnt := countInflight_set t.phases i Phase.pending Phase.rejected hp
          simp only [phVal] at hcnt
          dsimp only
          have heqc : countInflight (t.phases.set i Phase.rejected) =
              countInflight t.phases := by omega
          rw [heqc]
          exact ⟨hiff, hle⟩
        | finish i ok hp =>
          have hcnt := countInflight_set t.phases i Phase.inflight
            (if ok then Phase.doneOk else Phase.doneErr) hp
          have hval : phVal (if ok then Phase.doneOk else Phase.doneErr) = 0 := by
            cases ok <;> rfl
          rw [hval] at hcnt
          simp only [phVal] at hcnt
          dsimp only
          constructor
          · constructor
            · intro hfalse
              cases hfalse
            · intro hcnt1
              omega
          · omega
    refine ⟨hcore.1, hcore.2, ?_, ?_, ?_⟩
    · intro i s' hstep
      cases hstep
      exact ⟨rfl, rfl⟩
    · intro i ok s' hstep
      cases hstep
      rfl
    · intro i hg hp
      exact GateStep.start s i hp hg
  · intro context_text modelResult hocc
    unfold completeController
    dsimp only
    cases hidx : indexOf? (normalizeContext context_text) CURSOR_MARKER with
    | none => exact absurd hocc (indexOf?_eq_none_iff.mp hidx)
    | some ci => rfl

/-- C4 witness: the fresh two-request process is reachable and satisfies
the gate properties. -/
theorem gate_single_flight_witness :
    GateReachable 2 (initSys 2) ∧
    (GateInvariant (initSys 2) ∧
      (∀ context_text modelResult,
        Occurs CURSOR_MARKER (normalizeContext context_text) →
        completeController context_text true modelResult =
          (ControllerResponse.okJson (strOf "in process"), false))) :=
  ⟨GateReachable.init, gate_single_flight 2 (initSys 2) GateReachable.init⟩

end CodeSuggestions
